import Mathlib

/-!
Shallow embedding of the OpenMDAO component kernel
(`openmdao/core/component.py`, `openmdao/proc_allocators/proc_allocator.py`).

Vectors are modelled as functions `Fin n → ℚ` (exact arithmetic); the
elementwise vector operations of the external Vector collaborator
(`set_vec`, `+=`, `-=`, `*=`, `set_val`) become pointwise operations on
these functions.  A component's nonlinear state holds the `inputs`,
`outputs` and `residuals` vectors together with, for every named
right-hand side (vec_name), a triple of linearized d-vectors.
-/

namespace OpenMDAO

/-- Linear propagation mode: forward (`fwd`) or reverse (`rev`). -/
inductive Mode where
  | fwd : Mode
  | rev : Mode
deriving DecidableEq, Repr

/-- The three linearized vectors attached to one named right-hand side
(`d_inputs`, `d_outputs`, `d_residuals`). -/
structure DVecs (ni no : ℕ) where
  dInputs : Fin ni → ℚ
  dOutputs : Fin no → ℚ
  dResiduals : Fin no → ℚ

/-- The full per-component vector state: the nonlinear vectors plus a
map from vec_name to its d-vector triple. -/
structure CompState (ni no : ℕ) where
  inputs : Fin ni → ℚ
  outputs : Fin no → ℚ
  residuals : Fin no → ℚ
  d : String → DVecs ni no

/-- Apply one transformation to the d-vectors of each vec_name in the
list, in order; this models the `for vec_name in vec_names` loops of
`_apply_linear` and `_solve_linear`. -/
def updateEach {α : Type} (f : α → α) (vecNames : List String) (m : String → α) :
    String → α :=
  match vecNames with
  | [] => m
  | a :: t => updateEach f t (Function.update m a (f (m a)))

namespace ExplicitComponent

/-- `ExplicitComponent._apply_nonlinear`: save old outputs into the
residual vector, run the user's `compute` (which overwrites `outputs`),
subtract the new outputs from the residual, then add the residual back
onto the outputs:
`residuals.set_vec(outputs); compute; residuals -= outputs; outputs += residuals`. -/
def applyNonlinearState {ni no : ℕ} (compute : (Fin ni → ℚ) → Fin no → ℚ)
    (s : CompState ni no) : CompState ni no :=
  let r1 := s.outputs
  let y1 := compute s.inputs
  let r2 := r1 - y1
  let y2 := y1 + r2
  { s with outputs := y2, residuals := r2 }

/-- `ExplicitComponent._solve_nonlinear`: zero the residual vector, then
run the user's `compute`, whose result becomes the new outputs. -/
def solveNonlinearState {ni no : ℕ} (compute : (Fin ni → ℚ) → Fin no → ℚ)
    (s : CompState ni no) : CompState ni no :=
  { s with residuals := 0, outputs := compute s.inputs }

/-- `ExplicitComponent._solve_linear`: per vec_name, forward mode copies
`d_residuals` into `d_outputs`; reverse mode copies `d_outputs` into
`d_residuals`.  No sub-solver is consulted. -/
def solveLinearState {ni no : ℕ} (mode : Mode) (vecNames : List String)
    (s : CompState ni no) : CompState ni no :=
  { s with d := updateEach (fun dv =>
      match mode with
      | Mode.fwd => { dv with dOutputs := dv.dResiduals }
      | Mode.rev => { dv with dResiduals := dv.dOutputs }) vecNames s.d }

end ExplicitComponent

/-- Rational dot product of two vectors, used to state the transpose
property of forward and reverse linear propagation. -/
def dot {n : ℕ} (x y : Fin n → ℚ) : ℚ := ∑ i, x i * y i

/-- Modelled from the spec: the Jacobian Store's `_apply` block operator
(the Jacobian class itself is not part of the given sources).  Flattened
over all variables, the dependent blocks form a matrix `A` of
residual-by-output blocks and a matrix `B` of residual-by-input blocks;
forward mode accumulates `d_residuals += A·d_outputs + B·d_inputs`, and
reverse mode applies the transposed accumulation into `d_outputs` and
`d_inputs` from `d_residuals`. -/
def jacApplyD {ni no : ℕ} (A : Matrix (Fin no) (Fin no) ℚ)
    (B : Matrix (Fin no) (Fin ni) ℚ) (mode : Mode) (dv : DVecs ni no) :
    DVecs ni no :=
  match mode with
  | Mode.fwd =>
      { dv with dResiduals :=
          dv.dResiduals + A.mulVec dv.dOutputs + B.mulVec dv.dInputs }
  | Mode.rev =>
      { dv with
          dOutputs := dv.dOutputs + A.transpose.mulVec dv.dResiduals,
          dInputs := dv.dInputs + B.transpose.mulVec dv.dResiduals }

namespace ExplicitComponent

/-- The per-vec_name body of `ExplicitComponent._apply_linear` in the
non-top branch.  The user's `compute_jacvec_product` is modelled by two
maps: `fJ` writes the forward product into the vector passed in the
`d_outputs` slot (here `d_residuals`), `rJ` writes the reverse product
into `d_inputs` from the vector passed in the `d_outputs` slot.
Forward: `compute_jacvec_product(..., d_inputs, d_residuals, fwd);
d_residuals *= -1; d_residuals += d_outputs`.
Reverse: `d_residuals *= -1;
compute_jacvec_product(..., d_inputs, d_residuals, rev);
d_residuals *= -1; d_outputs.set_vec(d_residuals)`. -/
def applyLinearCore {ni no : ℕ} (fJ : (Fin ni → ℚ) → Fin no → ℚ)
    (rJ : (Fin no → ℚ) → Fin ni → ℚ) (mode : Mode) (dv : DVecs ni no) :
    DVecs ni no :=
  match mode with
  | Mode.fwd =>
      let dr1 := fJ dv.dInputs
      let dr2 := -dr1
      let dr3 := dr2 + dv.dOutputs
      { dv with dResiduals := dr3 }
  | Mode.rev =>
      let dr1 := -dv.dResiduals
      let di := rJ dr1
      let dr2 := -dr1
      { dv with dInputs := di, dResiduals := dr2, dOutputs := dr2 }

/-- `ExplicitComponent._apply_linear`: when this component is the top
Jacobian owner (`_jacobian._top_name == path_name`) each vec_name's
d-vectors go through the Jacobian Store's `_apply`; otherwise through the
matrix-free `compute_jacvec_product` wrapper `applyLinearCore`. -/
def applyLinearState {ni no : ℕ} (isTop : Bool)
    (A : Matrix (Fin no) (Fin no) ℚ) (B : Matrix (Fin no) (Fin ni) ℚ)
    (fJ : (Fin ni → ℚ) → Fin no → ℚ) (rJ : (Fin no → ℚ) → Fin ni → ℚ)
    (mode : Mode) (vecNames : List String) (s : CompState ni no) :
    CompState ni no :=
  if isTop then
    { s with d := updateEach (jacApplyD A B mode) vecNames s.d }
  else
    { s with d := updateEach (applyLinearCore fJ rJ mode) vecNames s.d }

end ExplicitComponent

namespace ImplicitComponent

/-- `ImplicitComponent._solve_nonlinear`: call the attached nonlinear
sub-solver when present, else the user's `solve_nonlinear` callback.  The
sub-solver collaborator returns its new outputs together with a
convergence flag; the engine has no return statement, so only the state
is produced and the flag is dropped. -/
def solveNonlinearState {ni no : ℕ}
    (solverNL : Option ((Fin ni → ℚ) → (Fin no → ℚ) → (Fin no → ℚ) × Bool))
    (userSolveNL : (Fin ni → ℚ) → (Fin no → ℚ) → Fin no → ℚ)
    (s : CompState ni no) : CompState ni no :=
  match solverNL with
  | some solver => { s with outputs := (solver s.inputs s.outputs).1 }
  | none => { s with outputs := userSolveNL s.inputs s.outputs }

/-- `ImplicitComponent.apply_linear`, the default user callback: its body
is exactly `self._jacobian._apply(d_inputs, d_outputs, d_residuals, mode)`. -/
def defaultApplyLinear {ni no : ℕ} (A : Matrix (Fin no) (Fin no) ℚ)
    (B : Matrix (Fin no) (Fin ni) ℚ) (mode : Mode) (dv : DVecs ni no) :
    DVecs ni no :=
  jacApplyD A B mode dv

/-- `ImplicitComponent._apply_linear`: for each vec_name, call the user's
`apply_linear` callback and then, unconditionally, the Jacobian Store's
`_apply` on the same d-vectors. -/
def applyLinearState {ni no : ℕ}
    (userApplyLinear : Mode → DVecs ni no → DVecs ni no)
    (A : Matrix (Fin no) (Fin no) ℚ) (B : Matrix (Fin no) (Fin ni) ℚ)
    (mode : Mode) (vecNames : List String) (s : CompState ni no) :
    CompState ni no :=
  { s with d := updateEach (fun dv =>
      jacApplyD A B mode (userApplyLinear mode dv)) vecNames s.d }

end ImplicitComponent

/-- Concrete 1-by-1 Jacobian matrix `[2]` used by the witnesses. -/
def wJ : Matrix (Fin 1) (Fin 1) ℚ := fun _ _ => 2

/-- Concrete component state used by the witnesses: `d_inputs = [3]`,
`d_outputs = [5]`, `d_residuals = [7]` for every vec_name. -/
def wS : CompState 1 1 where
  inputs := fun _ => 1
  outputs := fun _ => 1
  residuals := fun _ => 0
  d := fun _ =>
    { dInputs := fun _ => 3, dOutputs := fun _ => 5, dResiduals := fun _ => 7 }

/-- A Jacobian sub-block in row/column/value triplet form; the explicit
engine writes its identity self-blocks in this form (`ones`, `arange`,
`arange`). -/
abbrev Block := List (ℕ × ℕ × ℚ)

/-- The identity self-block of an output of the given size: unit values
on the diagonal positions `0 .. size-1`. -/
def identBlock (size : ℕ) : Block :=
  (List.range size).map (fun i => (i, i, (1 : ℚ)))

/-- Sign flip of one block's values. -/
def negBlock (b : Block) : Block :=
  b.map (fun t => (t.1, t.2.1, -t.2.2))

/-- Modelled from the spec: the Jacobian Store (the Jacobian class itself
is not part of the given sources).  Blocks are keyed by
(output name, input name) with a dependency flag per pair; a
`dependent = false` declaration is honored by every later read or write
(no storage, no computation); `topName` designates the top-owning
component, and the assembled global representation is re-derived from the
blocks only by `_update`. -/
structure Jacobian where
  dependent : String × String → Bool
  blocks : String × String → Option Block
  topName : String
  assembled : String × String → Option Block

/-- Modelled from the spec: block assignment `jacobian[op, ip] = value`;
a pair declared `dependent = false` is never written. -/
def Jacobian.setItem (j : Jacobian) (key : String × String) (v : Block) :
    Jacobian :=
  if j.dependent key = true then
    { j with blocks := Function.update j.blocks key (some v) }
  else j

/-- Modelled from the spec: `(op, ip) in jacobian` — the pair has a
populated block. -/
def Jacobian.containsKey (j : Jacobian) (key : String × String) : Bool :=
  (j.blocks key).isSome

/-- Modelled from the spec: `jacobian._negate(op, ip)` — in-place sign
flip of one block, a no-op if the pair is not dependent. -/
def Jacobian.negate (j : Jacobian) (key : String × String) : Jacobian :=
  if j.dependent key = true then
    { j with blocks :=
        Function.update j.blocks key (Option.map negBlock (j.blocks key)) }
  else j

/-- Modelled from the spec: `jacobian._update()` — re-derive the
externally assembled representation from the current blocks, which are
themselves unchanged. -/
def Jacobian.updateAssembly (j : Jacobian) : Jacobian :=
  { j with assembled := j.blocks }

/-- The `compute_jacobian` user callback of an explicit component,
modelled as the ordered list of block writes it performs, applied through
the store's assignment. -/
def applyWrites (writes : List ((String × String) × Block)) (j : Jacobian) :
    Jacobian :=
  match writes with
  | [] => j
  | kv :: t => applyWrites t (j.setItem kv.1 kv.2)

/-- The self-block pass of `ExplicitComponent._linearize`: for every
output, write the identity block `(ones, arange, arange)`. -/
def identPass (outputNames : List String) (outputSize : String → ℕ)
    (j : Jacobian) : Jacobian :=
  match outputNames with
  | [] => j
  | op :: t => identPass t outputSize (j.setItem (op, op)
      (identBlock (outputSize op)))

/-- One row of the negation pass of `ExplicitComponent._linearize`:
negate every populated `(op, ip)` block for the fixed output `op`. -/
def negPassRow (op : String) (inputNames : List String) (j : Jacobian) :
    Jacobian :=
  match inputNames with
  | [] => j
  | ip :: t => negPassRow op t
      (if j.containsKey (op, ip) = true then j.negate (op, ip) else j)

/-- The negation pass of `ExplicitComponent._linearize` over all
(output, input) name pairs. -/
def negPass (outputNames inputNames : List String) (j : Jacobian) :
    Jacobian :=
  match outputNames with
  | [] => j
  | op :: t => negPass t inputNames (negPassRow op inputNames j)

/-- `ExplicitComponent._linearize`: run the user's `compute_jacobian`,
then write every output's identity self-block, then negate every
populated (output, input) block, and finally, when this component is the
top Jacobian owner, refresh the assembled representation. -/
def ExplicitComponent.linearize (writes : List ((String × String) × Block))
    (outputNames inputNames : List String) (outputSize : String → ℕ)
    (pathName : String) (j : Jacobian) : Jacobian :=
  let j1 := applyWrites writes j
  let j2 := identPass outputNames outputSize j1
  let j3 := negPass outputNames inputNames j2
  if j3.topName = pathName then j3.updateAssembly else j3

/-- Metadata values stored in a variable's metadata dict. -/
inductive MetaVal where
  | ilist : List ℤ → MetaVal
  | sval : String → MetaVal
  | qval : ℚ → MetaVal
  | ival : ℤ → MetaVal
  | noneV : MetaVal
deriving DecidableEq, Repr

/-- Variable kind: `input` or `output`. -/
inductive VarType where
  | input : VarType
  | output : VarType
deriving DecidableEq, Repr

/-- `Component.DEFAULTS`: the class-level default metadata mapping. -/
def DEFAULTS : String → Option MetaVal := fun k =>
  if k = "indices" then some (MetaVal.ilist [0])
  else if k = "shape" then some (MetaVal.ilist [1])
  else if k = "units" then some (MetaVal.sval "")
  else if k = "value" then some (MetaVal.qval 1)
  else if k = "scale" then some (MetaVal.qval 1)
  else if k = "lower" then some MetaVal.noneV
  else if k = "upper" then some MetaVal.noneV
  else if k = "var_set" then some (MetaVal.ival 0)
  else none

/-- The keys of `Component.DEFAULTS`. -/
def defaultKeys : List String :=
  ["indices", "shape", "units", "value", "scale", "lower", "upper",
   "var_set"]

/-- Modelled from the spec: `numpy.array` over an index list yields the
same sequence of index values (the array container is an external
collaborator; only the values are observable in this embedding). -/
def npArray : MetaVal → MetaVal := fun v => v

/-- `metadata = DEFAULTS.copy(); metadata.update(kwargs)`: the caller's
keyword overrides win; every other key keeps the copied default value;
the shared `DEFAULTS` mapping itself is not written. -/
def copyUpdate (kwargs : String → Option MetaVal) :
    String → Option MetaVal := fun k =>
  match kwargs k with
  | some v => some v
  | none => DEFAULTS k

/-- The metadata built by `Component._add_variable`: copy `DEFAULTS`,
apply the caller's keyword overrides on the copy, and for an input
convert the `indices` entry through `numpy.array`. -/
def mkMetadata : VarType → (String → Option MetaVal) →
    String → Option MetaVal
  | VarType.input, kwargs =>
      Function.update (copyUpdate kwargs) "indices"
        (Option.map npArray (copyUpdate kwargs "indices"))
  | VarType.output, kwargs => copyUpdate kwargs

/-- The per-kind variable registry lists of a component:
`_variable_allprocs_names`, `_variable_myproc_names`,
`_variable_myproc_metadata`. -/
structure VarLists where
  allprocsNames : VarType → List String
  myprocNames : VarType → List String
  myprocMetadata : VarType → List (String → Option MetaVal)

/-- `Component._add_variable`: build the variable's metadata and append
the name to the all-procs and my-proc name lists of its kind, and the
metadata to the my-proc metadata list. -/
def addVariable (name : String) (typ : VarType)
    (kwargs : String → Option MetaVal) (c : VarLists) : VarLists where
  allprocsNames :=
    Function.update c.allprocsNames typ (c.allprocsNames typ ++ [name])
  myprocNames :=
    Function.update c.myprocNames typ (c.myprocNames typ ++ [name])
  myprocMetadata :=
    Function.update c.myprocMetadata typ
      (c.myprocMetadata typ ++ [mkMetadata typ kwargs])

/-- `Component.add_input`. -/
def addInput (name : String) (kwargs : String → Option MetaVal)
    (c : VarLists) : VarLists :=
  addVariable name VarType.input kwargs c

/-- `Component.add_output`. -/
def addOutput (name : String) (kwargs : String → Option MetaVal)
    (c : VarLists) : VarLists :=
  addVariable name VarType.output kwargs c

/-- A concrete Jacobian Store with every pair dependent and no block
populated, owned by the component at path `c`. -/
def wJac : Jacobian where
  dependent := fun _ => true
  blocks := fun _ => none
  topName := "c"
  assembled := fun _ => none

/-- A concrete `compute_jacobian` write list: one cross block
`jacobian[y, x] = [(0, 0, 2)]`. -/
def wWrites : List ((String × String) × Block) := [(("y", "x"), [(0, 0, 2)])]

/-- Concrete 1-by-1 residual-by-output Jacobian block `[1]`. -/
def wA : Matrix (Fin 1) (Fin 1) ℚ := fun _ _ => 1

/-- Concrete 1-by-1 residual-by-input Jacobian block `[0]`. -/
def wB : Matrix (Fin 1) (Fin 1) ℚ := fun _ _ => 0

/-- A concrete nonlinear sub-solver that reports convergence. -/
def wSolverT : (Fin 1 → ℚ) → (Fin 1 → ℚ) → (Fin 1 → ℚ) × Bool :=
  fun _ _ => (fun _ => 4, true)

/-- A concrete nonlinear sub-solver producing the same outputs as
`wSolverT` but reporting non-convergence. -/
def wSolverF : (Fin 1 → ℚ) → (Fin 1 → ℚ) → (Fin 1 → ℚ) × Bool :=
  fun _ _ => (fun _ => 4, false)

/-- Communicator collaborator: only its process count is observable here. -/
structure Comm where
  size : ℕ
deriving DecidableEq, Repr

/-- `ProcAllocator`: the `_parallel` flag set at construction. -/
structure ProcAllocator where
  parallel : Bool
deriving DecidableEq, Repr

/-- `ProcAllocator.__call__`: a non-parallel group, or a communicator of
size 1, is the serial base case that hands every subsystem index to every
process; otherwise the pluggable `_divide_procs` strategy (abstract in the
base class, passed here as a function argument) is invoked. -/
def ProcAllocator.call (alloc : ProcAllocator)
    (divideProcs : ℕ → Comm → ℕ × ℕ → List ℕ × Comm × (ℕ × ℕ))
    (nsub : ℕ) (comm : Comm) (procRange : ℕ × ℕ) :
    List ℕ × Comm × (ℕ × ℕ) :=
  if !alloc.parallel || comm.size == 1 then
    (List.range nsub, comm, (procRange.1, procRange.2))
  else
    divideProcs nsub comm procRange

end OpenMDAO

open OpenMDAO

theorem updateEach_of_not_mem {α : Type} (f : α → α) (vecNames : List String)
    (m : String → α) (n : String) (h : n ∉ vecNames) :
    updateEach f vecNames m n = m n := by
  induction vecNames generalizing m with
  | nil => rfl
  | cons a t ih =>
    have hna : n ≠ a := fun hc => h (hc ▸ List.mem_cons_self a t)
    rw [updateEach, ih _ (fun hc => h (List.mem_cons_of_mem a hc)),
      Function.update_noteq hna]

theorem updateEach_of_mem {α : Type} (f : α → α) (vecNames : List String)
    (m : String → α) (n : String) (hnd : vecNames.Nodup) (h : n ∈ vecNames) :
    updateEach f vecNames m n = f (m n) := by
  induction vecNames generalizing m with
  | nil => cases h
  | cons a t ih =>
    rw [updateEach]
    rcases List.mem_cons.mp h with rfl | hmem
    · have hna : n ∉ t := (List.nodup_cons.mp hnd).1
      rw [updateEach_of_not_mem _ _ _ _ hna, Function.update_same]
    · by_cases hna : n = a
      · subst hna
        exact absurd hmem (List.nodup_cons.mp hnd).1
      · rw [ih _ (List.nodup_cons.mp hnd).2 hmem, Function.update_noteq hna]

/-- Claim C1: for every explicit component and every state, the engine's
`_apply_nonlinear` leaves the outputs vector equal to its pre-call value,
sets the residuals vector to `old_outputs − compute(inputs)`, and does not
mutate the inputs vector. -/
theorem C1_apply_nonlinear_frame {ni no : ℕ}
    (compute : (Fin ni → ℚ) → Fin no → ℚ) (s : CompState ni no) :
    (ExplicitComponent.applyNonlinearState compute s).outputs = s.outputs ∧
    (ExplicitComponent.applyNonlinearState compute s).residuals
      = s.outputs - compute s.inputs ∧
    (ExplicitComponent.applyNonlinearState compute s).inputs = s.inputs := by
  refine ⟨?_, rfl, rfl⟩
  funext i
  show compute s.inputs i + (s.outputs i - compute s.inputs i) = s.outputs i
  ring

/-- Claim C6: for every explicit component (whose `compute` is, in this
embedding, a deterministic function of the inputs alone), `_solve_nonlinear`
followed by `_apply_nonlinear` leaves the residuals vector all zeros, and
`_solve_nonlinear` is the only one of the four operations that changes the
outputs vector: `_apply_nonlinear` and `_solve_linear` leave it unchanged
(`_solve_nonlinear` sets it to `compute(inputs)`). -/
theorem C6_solve_then_apply_zero_residual {ni no : ℕ}
    (compute : (Fin ni → ℚ) → Fin no → ℚ) (s : CompState ni no)
    (mode : Mode) (vecNames : List String) (isTop : Bool)
    (A : Matrix (Fin no) (Fin no) ℚ) (B : Matrix (Fin no) (Fin ni) ℚ)
    (fJ : (Fin ni → ℚ) → Fin no → ℚ) (rJ : (Fin no → ℚ) → Fin ni → ℚ) :
    (ExplicitComponent.applyNonlinearState compute
      (ExplicitComponent.solveNonlinearState compute s)).residuals = 0 ∧
    (ExplicitComponent.solveNonlinearState compute s).outputs
      = compute s.inputs ∧
    (ExplicitComponent.applyNonlinearState compute s).outputs = s.outputs ∧
    (ExplicitComponent.solveLinearState mode vecNames s).outputs
      = s.outputs ∧
    (ExplicitComponent.applyLinearState isTop A B fJ rJ mode vecNames
      s).outputs = s.outputs := by
  refine ⟨?_, rfl, ?_, rfl, ?_⟩
  · funext i
    show compute s.inputs i - compute s.inputs i = 0
    ring
  · funext i
    show compute s.inputs i + (s.outputs i - compute s.inputs i) = s.outputs i
    ring
  · unfold ExplicitComponent.applyLinearState
    split <;> rfl

theorem dot_mulVec_left {ni no : ℕ} (J : Matrix (Fin no) (Fin ni) ℚ)
    (x : Fin ni → ℚ) (r : Fin no → ℚ) :
    dot (J.mulVec x) r = dot x (J.transpose.mulVec r) := by
  simp only [dot, Matrix.mulVec, Matrix.dotProduct, Matrix.transpose_apply,
    Finset.sum_mul, Finset.mul_sum]
  rw [Finset.sum_comm]
  refine Finset.sum_congr rfl (fun j _ => Finset.sum_congr rfl (fun i _ => ?_))
  ring

theorem dot_add_left {n : ℕ} (x y z : Fin n → ℚ) :
    dot (x + y) z = dot x z + dot y z := by
  simp [dot, add_mul, Finset.sum_add_distrib]

theorem dot_neg_left {n : ℕ} (x y : Fin n → ℚ) : dot (-x) y = -dot x y := by
  simp [dot]

theorem dot_neg_right {n : ℕ} (x y : Fin n → ℚ) : dot x (-y) = -dot x y := by
  simp [dot]

/-- Claim C3: for every explicit component that is not the top Jacobian
owner, with `compute_jacvec_product` taken as the plain derivative
(forward map `J.mulVec`, reverse map `J.transpose.mulVec`), for each named
right-hand side the engine's `_apply_linear` ends, in forward mode, with
`d_residuals = d_outputs − J·d_inputs` (inputs/outputs d-vectors
untouched), and in reverse mode with `d_inputs = −Jᵀ·d_residuals` while
`d_outputs` receives `d_residuals` through the identity block and
`d_residuals` itself is restored. -/
theorem C3_apply_linear_nontop {ni no : ℕ} (J : Matrix (Fin no) (Fin ni) ℚ)
    (A : Matrix (Fin no) (Fin no) ℚ) (B : Matrix (Fin no) (Fin ni) ℚ)
    (vecNames : List String) (name : String) (s : CompState ni no)
    (hnd : vecNames.Nodup) (hmem : name ∈ vecNames) :
    ((ExplicitComponent.applyLinearState false A B J.mulVec
        J.transpose.mulVec Mode.fwd vecNames s).d name).dResiduals
      = (s.d name).dOutputs - J.mulVec (s.d name).dInputs ∧
    ((ExplicitComponent.applyLinearState false A B J.mulVec
        J.transpose.mulVec Mode.fwd vecNames s).d name).dInputs
      = (s.d name).dInputs ∧
    ((ExplicitComponent.applyLinearState false A B J.mulVec
        J.transpose.mulVec Mode.fwd vecNames s).d name).dOutputs
      = (s.d name).dOutputs ∧
    ((ExplicitComponent.applyLinearState false A B J.mulVec
        J.transpose.mulVec Mode.rev vecNames s).d name).dInputs
      = -(J.transpose.mulVec (s.d name).dResiduals) ∧
    ((ExplicitComponent.applyLinearState false A B J.mulVec
        J.transpose.mulVec Mode.rev vecNames s).d name).dOutputs
      = (s.d name).dResiduals ∧
    ((ExplicitComponent.applyLinearState false A B J.mulVec
        J.transpose.mulVec Mode.rev vecNames s).d name).dResiduals
      = (s.d name).dResiduals := by
  have hf : ∀ mode, (ExplicitComponent.applyLinearState false A B J.mulVec
      J.transpose.mulVec mode vecNames s).d name
      = ExplicitComponent.applyLinearCore J.mulVec J.transpose.mulVec mode
          (s.d name) :=
    fun mode => updateEach_of_mem _ vecNames s.d name hnd hmem
  refine ⟨?_, ?_, ?_, ?_, ?_, ?_⟩ <;> rw [hf]
  · show -(J.mulVec (s.d name).dInputs) + (s.d name).dOutputs
      = (s.d name).dOutputs - J.mulVec (s.d name).dInputs
    exact neg_add_eq_sub _ _
  · rfl
  · rfl
  · show J.transpose.mulVec (-(s.d name).dResiduals)
      = -(J.transpose.mulVec (s.d name).dResiduals)
    exact Matrix.mulVec_neg _ _
  · show - -(s.d name).dResiduals = (s.d name).dResiduals
    exact neg_neg _
  · show - -(s.d name).dResiduals = (s.d name).dResiduals
    exact neg_neg _

/-- Witness for C3: a concrete 1-by-1 component with `J = [2]`,
`d_inputs = [3]`, `d_outputs = [5]`, `d_residuals = [7]` and the single
vec_name `a`. -/
theorem C3_apply_linear_nontop_witness :
    (["a"] : List String).Nodup ∧ "a" ∈ (["a"] : List String) ∧
    (((ExplicitComponent.applyLinearState false 0 0 wJ.mulVec
        wJ.transpose.mulVec Mode.fwd ["a"] wS).d "a").dResiduals
      = (wS.d "a").dOutputs - wJ.mulVec (wS.d "a").dInputs ∧
    ((ExplicitComponent.applyLinearState false 0 0 wJ.mulVec
        wJ.transpose.mulVec Mode.fwd ["a"] wS).d "a").dInputs
      = (wS.d "a").dInputs ∧
    ((ExplicitComponent.applyLinearState false 0 0 wJ.mulVec
        wJ.transpose.mulVec Mode.fwd ["a"] wS).d "a").dOutputs
      = (wS.d "a").dOutputs ∧
    ((ExplicitComponent.applyLinearState false 0 0 wJ.mulVec
        wJ.transpose.mulVec Mode.rev ["a"] wS).d "a").dInputs
      = -(wJ.transpose.mulVec (wS.d "a").dResiduals) ∧
    ((ExplicitComponent.applyLinearState false 0 0 wJ.mulVec
        wJ.transpose.mulVec Mode.rev ["a"] wS).d "a").dOutputs
      = (wS.d "a").dResiduals ∧
    ((ExplicitComponent.applyLinearState false 0 0 wJ.mulVec
        wJ.transpose.mulVec Mode.rev ["a"] wS).d "a").dResiduals
      = (wS.d "a").dResiduals) :=
  ⟨by decide, by decide,
   C3_apply_linear_nontop wJ 0 0 ["a"] "a" wS (by decide) (by decide)⟩

/-- Claim C2: for every explicit component (not the top Jacobian owner)
whose `compute_jacvec_product` applies `J` forward and `Jᵀ` in reverse,
the engine's forward- and reverse-mode `_apply_linear` are exact
transposes: the inner product of the forward result `d_residuals` with an
arbitrary `d_residual` vector equals the inner product of the original
`(d_inputs, d_outputs)` with the reverse result; in particular the double
negation of `d_residuals` in the reverse branch cancels. -/
theorem C2_fwd_rev_transpose {ni no : ℕ} (J : Matrix (Fin no) (Fin ni) ℚ)
    (A : Matrix (Fin no) (Fin no) ℚ) (B : Matrix (Fin no) (Fin ni) ℚ)
    (vecNames : List String) (name : String) (s : CompState ni no)
    (hnd : vecNames.Nodup) (hmem : name ∈ vecNames) :
    dot ((ExplicitComponent.applyLinearState false A B J.mulVec
          J.transpose.mulVec Mode.fwd vecNames s).d name).dResiduals
        (s.d name).dResiduals
      = dot (s.d name).dInputs
          ((ExplicitComponent.applyLinearState false A B J.mulVec
            J.transpose.mulVec Mode.rev vecNames s).d name).dInputs
        + dot (s.d name).dOutputs
            ((ExplicitComponent.applyLinearState false A B J.mulVec
              J.transpose.mulVec Mode.rev vecNames s).d name).dOutputs ∧
    ((ExplicitComponent.applyLinearState false A B J.mulVec
        J.transpose.mulVec Mode.rev vecNames s).d name).dResiduals
      = (s.d name).dResiduals := by
  have hf : ∀ mode, (ExplicitComponent.applyLinearState false A B J.mulVec
      J.transpose.mulVec mode vecNames s).d name
      = ExplicitComponent.applyLinearCore J.mulVec J.transpose.mulVec mode
          (s.d name) :=
    fun mode => updateEach_of_mem _ vecNames s.d name hnd hmem
  constructor
  · rw [hf, hf]
    show dot (-(J.mulVec (s.d name).dInputs) + (s.d name).dOutputs)
        (s.d name).dResiduals
      = dot (s.d name).dInputs
          (J.transpose.mulVec (-(s.d name).dResiduals))
        + dot (s.d name).dOutputs (- -(s.d name).dResiduals)
    rw [dot_add_left, dot_neg_left, dot_mulVec_left, Matrix.mulVec_neg,
      dot_neg_right, neg_neg]
  · rw [hf]
    show - -(s.d name).dResiduals = (s.d name).dResiduals
    exact neg_neg _

/-- Witness for C2: the transpose identity evaluated at the concrete
1-by-1 component with `J = [2]`, `d_inputs = [3]`, `d_outputs = [5]`,
`d_residuals = [7]` and the single vec_name `a`. -/
theorem C2_fwd_rev_transpose_witness :
    (["a"] : List String).Nodup ∧ "a" ∈ (["a"] : List String) ∧
    (dot ((ExplicitComponent.applyLinearState false 0 0 wJ.mulVec
          wJ.transpose.mulVec Mode.fwd ["a"] wS).d "a").dResiduals
        (wS.d "a").dResiduals
      = dot (wS.d "a").dInputs
          ((ExplicitComponent.applyLinearState false 0 0 wJ.mulVec
            wJ.transpose.mulVec Mode.rev ["a"] wS).d "a").dInputs
        + dot (wS.d "a").dOutputs
            ((ExplicitComponent.applyLinearState false 0 0 wJ.mulVec
              wJ.transpose.mulVec Mode.rev ["a"] wS).d "a").dOutputs ∧
    ((ExplicitComponent.applyLinearState false 0 0 wJ.mulVec
        wJ.transpose.mulVec Mode.rev ["a"] wS).d "a").dResiduals
      = (wS.d "a").dResiduals) :=
  ⟨by decide, by decide,
   C2_fwd_rev_transpose wJ 0 0 ["a"] "a" wS (by decide) (by decide)⟩

/-- Claim C7: for every explicit component and each named right-hand
side, the engine's `_solve_linear` in forward mode copies `d_residuals`
into `d_outputs`, in reverse mode copies `d_outputs` into `d_residuals`,
never fails (total, no sub-solver is part of the definition), and
modifies nothing else: the other d-vectors of that vec_name, the
d-vectors of names outside the list, and the nonlinear vectors are all
unchanged. -/
theorem C7_solve_linear_copies {ni no : ℕ} (vecNames : List String)
    (name : String) (s : CompState ni no) (mode : Mode)
    (hnd : vecNames.Nodup) (hmem : name ∈ vecNames) :
    ((ExplicitComponent.solveLinearState Mode.fwd vecNames s).d name).dOutputs
      = (s.d name).dResiduals ∧
    ((ExplicitComponent.solveLinearState Mode.fwd vecNames s).d name).dResiduals
      = (s.d name).dResiduals ∧
    ((ExplicitComponent.solveLinearState Mode.fwd vecNames s).d name).dInputs
      = (s.d name).dInputs ∧
    ((ExplicitComponent.solveLinearState Mode.rev vecNames s).d name).dResiduals
      = (s.d name).dOutputs ∧
    ((ExplicitComponent.solveLinearState Mode.rev vecNames s).d name).dOutputs
      = (s.d name).dOutputs ∧
    ((ExplicitComponent.solveLinearState Mode.rev vecNames s).d name).dInputs
      = (s.d name).dInputs ∧
    (∀ m, m ∉ vecNames →
      (ExplicitComponent.solveLinearState mode vecNames s).d m = s.d m) ∧
    (ExplicitComponent.solveLinearState mode vecNames s).inputs = s.inputs ∧
    (ExplicitComponent.solveLinearState mode vecNames s).outputs = s.outputs ∧
    (ExplicitComponent.solveLinearState mode vecNames s).residuals
      = s.residuals := by
  have hm : ∀ md, (ExplicitComponent.solveLinearState md vecNames s).d name
      = (match md with
         | Mode.fwd => { s.d name with dOutputs := (s.d name).dResiduals }
         | Mode.rev => { s.d name with dResiduals := (s.d name).dOutputs }) :=
    fun md => updateEach_of_mem _ vecNames s.d name hnd hmem
  refine ⟨?_, ?_, ?_, ?_, ?_, ?_, ?_, rfl, rfl, rfl⟩
  · rw [hm]
  · rw [hm]
  · rw [hm]
  · rw [hm]
  · rw [hm]
  · rw [hm]
  · exact fun m hmn => updateEach_of_not_mem _ vecNames s.d m hmn

/-- Witness for C7: the copy behaviour evaluated at the concrete state
`wS` with the single vec_name `a` (forward mode for the frame clauses). -/
theorem C7_solve_linear_copies_witness :
    (["a"] : List String).Nodup ∧ "a" ∈ (["a"] : List String) ∧
    (((ExplicitComponent.solveLinearState Mode.fwd ["a"] wS).d "a").dOutputs
      = (wS.d "a").dResiduals ∧
    ((ExplicitComponent.solveLinearState Mode.fwd ["a"] wS).d "a").dResiduals
      = (wS.d "a").dResiduals ∧
    ((ExplicitComponent.solveLinearState Mode.fwd ["a"] wS).d "a").dInputs
      = (wS.d "a").dInputs ∧
    ((ExplicitComponent.solveLinearState Mode.rev ["a"] wS).d "a").dResiduals
      = (wS.d "a").dOutputs ∧
    ((ExplicitComponent.solveLinearState Mode.rev ["a"] wS).d "a").dOutputs
      = (wS.d "a").dOutputs ∧
    ((ExplicitComponent.solveLinearState Mode.rev ["a"] wS).d "a").dInputs
      = (wS.d "a").dInputs ∧
    (∀ m, m ∉ (["a"] : List String) →
      (ExplicitComponent.solveLinearState Mode.fwd ["a"] wS).d m = wS.d m) ∧
    (ExplicitComponent.solveLinearState Mode.fwd ["a"] wS).inputs
      = wS.inputs ∧
    (ExplicitComponent.solveLinearState Mode.fwd ["a"] wS).outputs
      = wS.outputs ∧
    (ExplicitComponent.solveLinearState Mode.fwd ["a"] wS).residuals
      = wS.residuals) :=
  ⟨by decide, by decide,
   C7_solve_linear_copies ["a"] "a" wS Mode.fwd (by decide) (by decide)⟩

/-- Claim C8: with the group declared non-parallel or a communicator of
size 1, the Processor Allocator returns `[0, 1, ..., nsub-1]`, the input
communicator itself, and the input proc_range, independently of the
pluggable `_divide_procs` strategy (which is therefore never invoked). -/
theorem C8_serial_base_case (alloc : ProcAllocator) (comm : Comm)
    (h : alloc.parallel = false ∨ comm.size = 1)
    (divideProcs : ℕ → Comm → ℕ × ℕ → List ℕ × Comm × (ℕ × ℕ))
    (nsub : ℕ) (procRange : ℕ × ℕ) :
    alloc.call divideProcs nsub comm procRange
      = (List.range nsub, comm, procRange) := by
  have hcond : (!alloc.parallel || comm.size == 1) = true := by
    rcases h with h | h
    · simp [h]
    · simp [h]
  simp only [ProcAllocator.call, hcond, if_pos]

/-- Witness for C8: the spec's scenario `nsub = 2`, parallel group,
communicator of size 1 falls back to the serial base case `[0, 1]` with
the communicator and range passed through, for an arbitrary strategy. -/
theorem C8_serial_base_case_witness :
    ((ProcAllocator.mk true).parallel = false ∨ (Comm.mk 1).size = 1) ∧
    (ProcAllocator.mk true).call (fun _ _ _ => ([], Comm.mk 99, (5, 7))) 2
        (Comm.mk 1) (0, 1) = ([0, 1], Comm.mk 1, (0, 1)) :=
  ⟨Or.inr rfl,
   C8_serial_base_case (ProcAllocator.mk true) (Comm.mk 1) (Or.inr rfl)
     (fun _ _ _ => ([], Comm.mk 99, (5, 7))) 2 (0, 1)⟩

/-- Claim C5 (refuted by the code): `ImplicitComponent._apply_linear`
calls the user's `apply_linear` callback and then, unconditionally, the
Jacobian Store's `_apply` on the same d-vectors; with the default
callback (whose body is itself the Jacobian `_apply`) the block operator
is applied twice in one engine call.  At the concrete state `wS`
(`d_outputs = [5]`, `d_residuals = [7]`) with blocks `A = [1]`,
`B = [0]`, a single forward application of the operator accumulates
`d_residuals = 7 + 5 = 12`, but the engine produces `17`. -/
theorem C5_apply_linear_double_application :
    ((ImplicitComponent.applyLinearState
        (ImplicitComponent.defaultApplyLinear wA wB) wA wB Mode.fwd ["a"]
        wS).d "a").dResiduals 0 = 17 ∧
    (jacApplyD wA wB Mode.fwd (wS.d "a")).dResiduals 0 = 12 := by
  constructor <;>
    simp [ImplicitComponent.applyLinearState,
      ImplicitComponent.defaultApplyLinear, jacApplyD, updateEach,
      Function.update, wA, wB, wS, Matrix.mulVec, Matrix.dotProduct] <;>
    norm_num

/-- Claim C9 (counterexample): two attached nonlinear sub-solvers that
produce the same outputs but opposite convergence outcomes give
literally identical results of the engine's `_solve_nonlinear`; the
outcome is therefore discarded by the engine, not returned to the
caller. -/
theorem C9_outcome_not_returned :
    ImplicitComponent.solveNonlinearState (some wSolverT) (fun _ o => o) wS
      = ImplicitComponent.solveNonlinearState (some wSolverF) (fun _ o => o)
          wS ∧
    (wSolverT wS.inputs wS.outputs).2 = true ∧
    (wSolverF wS.inputs wS.outputs).2 = false :=
  ⟨rfl, rfl, rfl⟩

/-- Claim C9 as amended: for every implicit component with an attached
nonlinear sub-solver, the engine's `_solve_nonlinear` adopts the
sub-solver's output state and nothing else — it never raises on
non-convergence, but it also discards the sub-solver's convergence
outcome instead of returning it (the Python method has no return
statement). -/
theorem C9_amended_solver_state_adopted {ni no : ℕ}
    (solver : (Fin ni → ℚ) → (Fin no → ℚ) → (Fin no → ℚ) × Bool)
    (userSolveNL : (Fin ni → ℚ) → (Fin no → ℚ) → Fin no → ℚ)
    (s : CompState ni no) :
    ImplicitComponent.solveNonlinearState (some solver) userSolveNL s
      = { s with outputs := (solver s.inputs s.outputs).1 } :=
  rfl

theorem setItem_dependent (j : Jacobian) (key : String × String)
    (v : Block) : (j.setItem key v).dependent = j.dependent := by
  unfold Jacobian.setItem
  split <;> rfl

theorem setItem_blocks (j : Jacobian) (key : String × String) (v : Block)
    (k : String × String) :
    (j.setItem key v).blocks k
      = if j.dependent key = true ∧ k = key then some v else j.blocks k := by
  unfold Jacobian.setItem
  by_cases hdep : j.dependent key = true
  · simp [hdep, Function.update_apply]
  · simp [hdep]

theorem negate_dependent (j : Jacobian) (key : String × String) :
    (j.negate key).dependent = j.dependent := by
  unfold Jacobian.negate
  split <;> rfl

theorem negate_blocks (j : Jacobian) (key k : String × String) :
    (j.negate key).blocks k
      = if j.dependent key = true ∧ k = key then
          Option.map negBlock (j.blocks k)
        else j.blocks k := by
  unfold Jacobian.negate
  by_cases hdep : j.dependent key = true
  · by_cases hk : k = key
    · subst hk
      simp [hdep, Function.update_apply]
    · simp [hdep, hk, Function.update_apply]
  · simp [hdep]

theorem negStep_dependent (j : Jacobian) (key : String × String) :
    (if j.containsKey key = true then j.negate key else j).dependent
      = j.dependent := by
  by_cases hc : j.containsKey key = true
  · rw [if_pos hc]
    exact negate_dependent j key
  · rw [if_neg hc]

theorem negStep_blocks (j : Jacobian) (key k : String × String) :
    (if j.containsKey key = true then j.negate key else j).blocks k
      = if j.dependent key = true ∧ k = key then
          Option.map negBlock (j.blocks k)
        else j.blocks k := by
  by_cases hc : j.containsKey key = true
  · rw [if_pos hc]
    exact negate_blocks j key k
  · rw [if_neg hc]
    have hnone : j.blocks key = none := by
      unfold Jacobian.containsKey at hc
      cases h : j.blocks key with
      | none => rfl
      | some b => rw [h] at hc; exact absurd rfl hc
    by_cases hk : j.dependent key = true ∧ k = key
    · rw [if_pos hk, hk.2, hnone]
      rfl
    · rw [if_neg hk]

theorem applyWrites_dependent (writes : List ((String × String) × Block)) :
    ∀ j : Jacobian, (applyWrites writes j).dependent = j.dependent := by
  induction writes with
  | nil => intro j; rfl
  | cons kv t ih =>
    intro j
    rw [applyWrites, ih, setItem_dependent]

theorem applyWrites_blocks_nondep
    (writes : List ((String × String) × Block)) :
    ∀ (j : Jacobian) (k : String × String), j.dependent k = false →
      (applyWrites writes j).blocks k = j.blocks k := by
  induction writes with
  | nil => intro j k _; rfl
  | cons kv t ih =>
    intro j k h
    rw [applyWrites, ih _ k (by rw [setItem_dependent]; exact h),
      setItem_blocks, if_neg]
    intro hcon
    rw [hcon.2] at h
    rw [h] at hcon
    exact Bool.false_ne_true hcon.1

theorem identPass_dependent (outs : List String) (sz : String → ℕ) :
    ∀ j : Jacobian, (identPass outs sz j).dependent = j.dependent := by
  induction outs with
  | nil => intro j; rfl
  | cons a t ih =>
    intro j
    rw [identPass, ih, setItem_dependent]

theorem identPass_blocks_untouched (outs : List String) (sz : String → ℕ) :
    ∀ (j : Jacobian) (k : String × String),
      (∀ op ∈ outs, (op, op) ≠ k) →
      (identPass outs sz j).blocks k = j.blocks k := by
  induction outs with
  | nil => intro j k _; rfl
  | cons a t ih =>
    intro j k h
    rw [identPass, ih _ k (fun op hop => h op (List.mem_cons_of_mem a hop)),
      setItem_blocks, if_neg]
    intro hcon
    exact h a (List.mem_cons_self a t) hcon.2.symm

theorem identPass_blocks_nondep (outs : List String) (sz : String → ℕ) :
    ∀ (j : Jacobian) (k : String × String), j.dependent k = false →
      (identPass outs sz j).blocks k = j.blocks k := by
  induction outs with
  | nil => intro j k _; rfl
  | cons a t ih =>
    intro j k h
    rw [identPass, ih _ k (by rw [setItem_dependent]; exact h),
      setItem_blocks, if_neg]
    intro hcon
    rw [hcon.2] at h
    rw [h] at hcon
    exact Bool.false_ne_true hcon.1

theorem identPass_blocks_self (outs : List String) (sz : String → ℕ) :
    ∀ (j : Jacobian) (op : String), op ∈ outs →
      j.dependent (op, op) = true →
      (identPass outs sz j).blocks (op, op)
        = some (identBlock (sz op)) := by
  induction outs with
  | nil => intro j op hop _; cases hop
  | cons a t ih =>
    intro j op hop hdep
    rw [identPass]
    by_cases hmem : op ∈ t
    · exact ih _ op hmem (by rw [setItem_dependent]; exact hdep)
    · have hoa : op = a := by
        rcases List.mem_cons.mp hop with h | h
        · exact h
        · exact absurd h hmem
      subst hoa
      rw [identPass_blocks_untouched t sz _ _ ?hun, setItem_blocks,
        if_pos ⟨hdep, rfl⟩]
      case hun =>
        intro b hb hcon
        have hbop : b = op := congrArg Prod.fst hcon
        exact hmem (hbop ▸ hb)

theorem negPassRow_dependent (op : String) (ins : List String) :
    ∀ j : Jacobian, (negPassRow op ins j).dependent = j.dependent := by
  induction ins with
  | nil => intro j; rfl
  | cons a t ih =>
    intro j
    rw [negPassRow, ih, negStep_dependent]

theorem negPassRow_blocks_untouched (op : String) (ins : List String) :
    ∀ (j : Jacobian) (k : String × String),
      (∀ ip ∈ ins, (op, ip) ≠ k) →
      (negPassRow op ins j).blocks k = j.blocks k := by
  induction ins with
  | nil => intro j k _; rfl
  | cons a t ih =>
    intro j k h
    rw [negPassRow, ih _ k (fun ip hip => h ip (List.mem_cons_of_mem a hip)),
      negStep_blocks, if_neg]
    intro hcon
    exact h a (List.mem_cons_self a t) hcon.2.symm

theorem negPassRow_blocks_nondep (op : String) (ins : List String) :
    ∀ (j : Jacobian) (k : String × String), j.dependent k = false →
      (negPassRow op ins j).blocks k = j.blocks k := by
  induction ins with
  | nil => intro j k _; rfl
  | cons a t ih =>
    intro j k h
    rw [negPassRow, ih _ k (by rw [negStep_dependent]; exact h),
      negStep_blocks, if_neg]
    intro hcon
    rw [hcon.2] at h
    rw [h] at hcon
    exact Bool.false_ne_true hcon.1

theorem negPassRow_blocks_hit (op : String) (ins : List String) :
    ∀ (j : Jacobian) (ip : String), ins.Nodup → ip ∈ ins →
      (negPassRow op ins j).blocks (op, ip)
        = if j.dependent (op, ip) = true then
            Option.map negBlock (j.blocks (op, ip))
          else j.blocks (op, ip) := by
  induction ins with
  | nil => intro j ip _ hip; cases hip
  | cons a t ih =>
    intro j ip hnd hip
    rw [negPassRow]
    by_cases hmem : ip ∈ t
    · have hia : ip ≠ a := by
        intro hc
        exact (List.nodup_cons.mp hnd).1 (hc ▸ hmem)
      have hstep : (if j.containsKey (op, a) = true then j.negate (op, a)
          else j).blocks (op, ip) = j.blocks (op, ip) := by
        rw [negStep_blocks, if_neg]
        intro hcon
        exact hia (congrArg Prod.snd hcon.2)
      rw [ih _ ip (List.nodup_cons.mp hnd).2 hmem, negStep_dependent, hstep]
    · have hia : ip = a := by
        rcases List.mem_cons.mp hip with h | h
        · exact h
        · exact absurd h hmem
      subst hia
      rw [negPassRow_blocks_untouched op t _ _ ?hun, negStep_blocks]
      case hun =>
        intro b hb hcon
        have hbip : b = ip := congrArg Prod.snd hcon
        exact hmem (hbip ▸ hb)
      by_cases hdep : j.dependent (op, ip) = true
      · rw [if_pos ⟨hdep, rfl⟩, if_pos hdep]
      · rw [if_neg (fun hcon => hdep hcon.1), if_neg hdep]

theorem negPass_dependent (outs ins : List String) :
    ∀ j : Jacobian, (negPass outs ins j).dependent = j.dependent := by
  induction outs with
  | nil => intro j; rfl
  | cons a t ih =>
    intro j
    rw [negPass, ih, negPassRow_dependent]

theorem negPass_blocks_untouched (outs ins : List String) :
    ∀ (j : Jacobian) (k : String × String),
      (∀ op ∈ outs, ∀ ip ∈ ins, (op, ip) ≠ k) →
      (negPass outs ins j).blocks k = j.blocks k := by
  induction outs with
  | nil => intro j k _; rfl
  | cons a t ih =>
    intro j k h
    rw [negPass,
      ih _ k (fun op hop ip hip => h op (List.mem_cons_of_mem a hop) ip hip),
      negPassRow_blocks_untouched a ins _ k
        (fun ip hip => h a (List.mem_cons_self a t) ip hip)]

theorem negPass_blocks_nondep (outs ins : List String) :
    ∀ (j : Jacobian) (k : String × String), j.dependent k = false →
      (negPass outs ins j).blocks k = j.blocks k := by
  induction outs with
  | nil => intro j k _; rfl
  | cons a t ih =>
    intro j k h
    rw [negPass, ih _ k (by rw [negPassRow_dependent]; exact h),
      negPassRow_blocks_nondep a ins j k h]

theorem negPass_blocks_hit (outs ins : List String) :
    ∀ (j : Jacobian) (op ip : String), outs.Nodup → ins.Nodup →
      op ∈ outs → ip ∈ ins →
      (negPass outs ins j).blocks (op, ip)
        = if j.dependent (op, ip) = true then
            Option.map negBlock (j.blocks (op, ip))
          else j.blocks (op, ip) := by
  induction outs with
  | nil => intro j op ip _ _ hop _; cases hop
  | cons a t ih =>
    intro j op ip hndo hndi hop hip
    rw [negPass]
    by_cases hmem : op ∈ t
    · have hoa : op ≠ a := by
        intro hc
        exact (List.nodup_cons.mp hndo).1 (hc ▸ hmem)
      rw [ih _ op ip (List.nodup_cons.mp hndo).2 hndi hmem hip,
        negPassRow_dependent,
        negPassRow_blocks_untouched a ins j (op, ip)
          (fun b _ hcon => hoa (congrArg Prod.fst hcon).symm)]
    · have hoa : op = a := by
        rcases List.mem_cons.mp hop with h | h
        · exact h
        · exact absurd h hmem
      subst hoa
      rw [negPass_blocks_untouched t ins _ _ ?hun,
        negPassRow_blocks_hit op ins j ip hndi hip]
      case hun =>
        intro b hb ip2 _ hcon
        have hbop : b = op := congrArg Prod.fst hcon
        exact hmem (hbop ▸ hb)

theorem linearize_blocks (writes : List ((String × String) × Block))
    (outs ins : List String) (sz : String → ℕ) (pathName : String)
    (j : Jacobian) :
    (ExplicitComponent.linearize writes outs ins sz pathName j).blocks
      = (negPass outs ins (identPass outs sz (applyWrites writes j))).blocks
      := by
  show (if (negPass outs ins (identPass outs sz
        (applyWrites writes j))).topName = pathName
      then (negPass outs ins (identPass outs sz
        (applyWrites writes j))).updateAssembly
      else negPass outs ins (identPass outs sz
        (applyWrites writes j))).blocks = _
  split <;> rfl

/-- Claim C4: after the explicit engine's `_linearize` runs — it invokes
the user's `compute_jacobian` once, modelled as the ordered write list —
every output's self-block equals the identity block, every
(output, input) pair's block equals the negation of what stood there
after `compute_jacobian` wrote (negated exactly once), and every pair
declared `dependent = false` is not touched at all.  Hypotheses: distinct
output names, distinct input names, output and input namespaces disjoint,
and the (default-true) dependency of every output's self pair. -/
theorem C4_linearize_identity_and_negation
    (writes : List ((String × String) × Block)) (outs ins : List String)
    (sz : String → ℕ) (pathName : String) (j : Jacobian)
    (hndO : outs.Nodup) (hndI : ins.Nodup)
    (hdisj : ∀ a ∈ outs, a ∉ ins)
    (hdep : ∀ op ∈ outs, j.dependent (op, op) = true) :
    (∀ op ∈ outs,
      (ExplicitComponent.linearize writes outs ins sz pathName j).blocks
          (op, op)
        = some (identBlock (sz op))) ∧
    (∀ op ∈ outs, ∀ ip ∈ ins,
      (ExplicitComponent.linearize writes outs ins sz pathName j).blocks
          (op, ip)
        = if j.dependent (op, ip) = true then
            Option.map negBlock ((applyWrites writes j).blocks (op, ip))
          else j.blocks (op, ip)) ∧
    (∀ k : String × String, j.dependent k = false →
      (ExplicitComponent.linearize writes outs ins sz pathName j).blocks k
        = j.blocks k) := by
  refine ⟨?_, ?_, ?_⟩
  · intro op hop
    rw [linearize_blocks,
      negPass_blocks_untouched outs ins _ (op, op) ?hneg,
      identPass_blocks_self outs sz _ op hop
        (by rw [applyWrites_dependent]; exact hdep op hop)]
    case hneg =>
      intro a _ b hb hcon
      have hbop : b = op := congrArg Prod.snd hcon
      exact hdisj op hop (hbop ▸ hb)
  · intro op hop ip hip
    have hkey : ∀ o ∈ outs, (o, o) ≠ (op, ip) := by
      intro o ho hcon
      have h1 : o = op := congrArg Prod.fst hcon
      have h2 : o = ip := congrArg Prod.snd hcon
      exact hdisj o ho (h2 ▸ hip)
    rw [linearize_blocks,
      negPass_blocks_hit outs ins _ op ip hndO hndI hop hip,
      identPass_dependent, applyWrites_dependent,
      identPass_blocks_untouched outs sz _ (op, ip) hkey]
    by_cases hd : j.dependent (op, ip) = true
    · rw [if_pos hd, if_pos hd]
    · rw [if_neg hd, if_neg hd,
        applyWrites_blocks_nondep writes j (op, ip)
          (Bool.not_eq_true _ ▸ Bool.of_not_eq_true hd)]
  · intro k hk
    rw [linearize_blocks,
      negPass_blocks_nondep outs ins _ k
        (by rw [identPass_dependent, applyWrites_dependent]; exact hk),
      identPass_blocks_nondep outs sz _ k
        (by rw [applyWrites_dependent]; exact hk),
      applyWrites_blocks_nondep writes j k hk]

/-- Witness for C4: one output `y` of size 1, one input `x`, the write
list `wWrites`, and the all-dependent empty store `wJac`. -/
theorem C4_linearize_identity_and_negation_witness :
    (["y"] : List String).Nodup ∧ (["x"] : List String).Nodup ∧
    (∀ a ∈ (["y"] : List String), a ∉ (["x"] : List String)) ∧
    (∀ op ∈ (["y"] : List String), wJac.dependent (op, op) = true) ∧
    ((∀ op ∈ (["y"] : List String),
      (ExplicitComponent.linearize wWrites ["y"] ["x"] (fun _ => 1) "c"
          wJac).blocks (op, op)
        = some (identBlock 1)) ∧
    (∀ op ∈ (["y"] : List String), ∀ ip ∈ (["x"] : List String),
      (ExplicitComponent.linearize wWrites ["y"] ["x"] (fun _ => 1) "c"
          wJac).blocks (op, ip)
        = if wJac.dependent (op, ip) = true then
            Option.map negBlock ((applyWrites wWrites wJac).blocks (op, ip))
          else wJac.blocks (op, ip)) ∧
    (∀ k : String × String, wJac.dependent k = false →
      (ExplicitComponent.linearize wWrites ["y"] ["x"] (fun _ => 1) "c"
          wJac).blocks k
        = wJac.blocks k)) := by
  have hdisj : ∀ a ∈ (["y"] : List String), a ∉ (["x"] : List String) := by
    intro a ha
    rw [List.mem_singleton] at ha
    subst ha
    decide
  have hdep : ∀ op ∈ (["y"] : List String),
      wJac.dependent (op, op) = true := fun op _ => rfl
  have hmain := C4_linearize_identity_and_negation wWrites ["y"] ["x"]
    (fun _ => 1) "c" wJac (by decide) (by decide) hdisj hdep
  exact ⟨by decide, by decide, hdisj, hdep, hmain.1, hmain.2.1, hmain.2.2⟩

/-- Claim C10: every `add_input`/`add_output` declaration builds its
metadata by copying `DEFAULTS` and applying the caller's keyword
overrides on the copy.  `DEFAULTS` itself is never written: the metadata
appended by a declaration depends only on that declaration's kwargs, not
on the registry state `c` (universally quantified here), and declaring
with no overrides reproduces `DEFAULTS` exactly.  The metadata is defined
at every default key and carries the default value wherever no override
was given, and the variable's name is appended to both the all-procs and
my-proc name lists of its kind (the metadata to the my-proc metadata
list). -/
theorem C10_add_variable_metadata (name : String) (typ : VarType)
    (kwargs : String → Option MetaVal) (c : VarLists) :
    (addVariable name typ kwargs c).allprocsNames typ
      = c.allprocsNames typ ++ [name] ∧
    (addVariable name typ kwargs c).myprocNames typ
      = c.myprocNames typ ++ [name] ∧
    (addVariable name typ kwargs c).myprocMetadata typ
      = c.myprocMetadata typ ++ [mkMetadata typ kwargs] ∧
    (∀ k ∈ defaultKeys, (mkMetadata typ kwargs k).isSome = true) ∧
    (∀ k, kwargs k = none → mkMetadata typ kwargs k = DEFAULTS k) ∧
    mkMetadata typ (fun _ => none) = DEFAULTS := by
  have hcu : ∀ k, (DEFAULTS k).isSome = true →
      (copyUpdate kwargs k).isSome = true := by
    intro k hk
    cases hkw : kwargs k <;> simp [copyUpdate, hkw, hk]
  have hcun : ∀ k, kwargs k = none → copyUpdate kwargs k = DEFAULTS k := by
    intro k hk
    simp [copyUpdate, hk]
  have hsome : ∀ k, (DEFAULTS k).isSome = true →
      (mkMetadata typ kwargs k).isSome = true := by
    intro k hk
    cases typ with
    | output => exact hcu k hk
    | input =>
      by_cases hik : k = "indices"
      · subst hik
        show (Function.update (copyUpdate kwargs) "indices"
          (Option.map npArray (copyUpdate kwargs "indices"))
            "indices").isSome = true
        rw [Function.update_same]
        cases hkw : kwargs "indices" <;> simp [copyUpdate, hkw, hk]
      · show (Function.update (copyUpdate kwargs) "indices"
          (Option.map npArray (copyUpdate kwargs "indices")) k).isSome = true
        rw [Function.update_noteq hik]
        exact hcu k hk
  have hnone : ∀ k, kwargs k = none →
      mkMetadata typ kwargs k = DEFAULTS k := by
    intro k hk
    cases typ with
    | output => exact hcun k hk
    | input =>
      by_cases hik : k = "indices"
      · subst hik
        show Function.update (copyUpdate kwargs) "indices"
          (Option.map npArray (copyUpdate kwargs "indices")) "indices"
            = DEFAULTS "indices"
        rw [Function.update_same, hcun "indices" hk]
        rfl
      · show Function.update (copyUpdate kwargs) "indices"
          (Option.map npArray (copyUpdate kwargs "indices")) k = DEFAULTS k
        rw [Function.update_noteq hik]
        exact hcun k hk
  refine ⟨?_, ?_, ?_, ?_, hnone, ?_⟩
  · exact Function.update_same typ _ c.allprocsNames
  · exact Function.update_same typ _ c.myprocNames
  · exact Function.update_same typ _ c.myprocMetadata
  · intro k hk
    apply hsome
    fin_cases hk <;> rfl
  · funext k
    cases typ with
    | output => rfl
    | input =>
      by_cases hik : k = "indices"
      · subst hik
        rfl
      · show Function.update (copyUpdate (fun _ => none)) "indices"
          (Option.map npArray (copyUpdate (fun _ => none) "indices")) k
            = DEFAULTS k
        rw [Function.update_noteq hik]
        rfl

/-- Witness for C10: declaring input `x` with a `value` override on an
empty registry. -/
theorem C10_add_variable_metadata_witness :
    (addVariable "x" VarType.input
        (fun k => if k = "value" then some (MetaVal.qval 3) else none)
        (VarLists.mk (fun _ => []) (fun _ => []) (fun _ => []))
      ).allprocsNames VarType.input = [] ++ ["x"] ∧
    (addVariable "x" VarType.input
        (fun k => if k = "value" then some (MetaVal.qval 3) else none)
        (VarLists.mk (fun _ => []) (fun _ => []) (fun _ => []))
      ).myprocNames VarType.input = [] ++ ["x"] ∧
    (addVariable "x" VarType.input
        (fun k => if k = "value" then some (MetaVal.qval 3) else none)
        (VarLists.mk (fun _ => []) (fun _ => []) (fun _ => []))
      ).myprocMetadata VarType.input
      = [] ++ [mkMetadata VarType.input
          (fun k => if k = "value" then some (MetaVal.qval 3) else none)] ∧
    (∀ k ∈ defaultKeys,
      (mkMetadata VarType.input
        (fun k => if k = "value" then some (MetaVal.qval 3) else none)
        k).isSome = true) ∧
    (∀ k, (if k = "value" then some (MetaVal.qval 3) else none)
        = (none : Option MetaVal) →
      mkMetadata VarType.input
          (fun k => if k = "value" then some (MetaVal.qval 3) else none) k
        = DEFAULTS k) ∧
    mkMetadata VarType.input (fun _ => none) = DEFAULTS :=
  C10_add_variable_metadata "x" VarType.input
    (fun k => if k = "value" then some (MetaVal.qval 3) else none)
    (VarLists.mk (fun _ => []) (fun _ => []) (fun _ => []))
